import Mathlib

/-!
Shallow embedding of the `zk-img-halo2` crate (repository `irving4444/rial`)
and proofs checking the natural-language specification against it.

Source files embedded:
- `src/backend/zk-img-halo2/src/image_utils.rs`
- `src/backend/zk-img-halo2/src/lib.rs`
- `src/backend/zk-img-halo2/src/circuits.rs`
- `src/backend/zk-img-halo2/src/recursive_circuit.rs`
- `src/backend/zk-img-halo2/src/proof_system.rs`

Machine integers (`u8`, `u32`, `usize`) are modelled as `Nat` (all arithmetic
in the embedded code stays far below any wrap-around point except where an
explicit `% 2 ^ w` appears in the model). Rust panics (out-of-bounds indexing,
division by zero, `step_by(0)`) are modelled by `Option`-returning functions
that produce `none` exactly on a panicking execution.
-/

namespace ZkImg

/-! ### Field elements: `halo2_proofs::pasta::Fp` (Pallas base field)

`Fp` carries the canonical representative of a scalar as a `Nat` below the
Pallas base-field modulus. None of the embedded code performs field
arithmetic on these values; it only embeds small integers and reads back
their low bits, so the carrier with an explicit modulus is a faithful model.
-/

/-- The Pallas base-field modulus used by `halo2_proofs::pasta::Fp`. -/
def pallasP : Nat :=
  0x40000000000000000000000000000000224698fc094cf91b992d30ed00000001

/-- A Pallas base-field element, as its canonical representative. -/
structure Fp where
  val : Nat
  deriving DecidableEq, Repr

/-- `Fp::from(n as u64)`: embed an integer, reduced mod the field modulus. -/
def Fp.ofNat (n : Nat) : Fp := ⟨n % pallasP⟩

/-- `F::zero()`. -/
def Fp.zero : Fp := ⟨0⟩

/-- `Fp::get_lower_32`: the low 32 bits of the canonical representative. -/
def Fp.get_lower_32 (f : Fp) : Nat := f.val % 2 ^ 32

/-- `Fp::to_bytes`: 32-byte little-endian encoding of the representative. -/
def Fp.to_bytes (f : Fp) : List Nat :=
  (List.range 32).map fun i => f.val / 256 ^ i % 256

/-- An RGB pixel of a raster image: three `u8` channel values. -/
abbrev Rgb := Nat × Nat × Nat

/-- An RGB pixel encoded as field elements. -/
abbrev FpPix := Fp × Fp × Fp

/-! ### `image_utils.rs` -/

/-- `rgb_to_field` (image_utils.rs): embed the three `u8` channels. -/
def rgb_to_field (r g b : Nat) : FpPix :=
  (Fp.ofNat r, Fp.ofNat g, Fp.ofNat b)

/-- `field_to_rgb` (image_utils.rs): `get_lower_32() & 0xFF` per channel. -/
def field_to_rgb (p : FpPix) : Rgb :=
  (p.1.get_lower_32 &&& 0xFF, p.2.1.get_lower_32 &&& 0xFF, p.2.2.get_lower_32 &&& 0xFF)

/-- The per-pixel encoding closure of `image_to_field_matrix`:
`rgb_to_field(rgb[0], rgb[1], rgb[2])`. -/
def encPix (p : Rgb) : FpPix := rgb_to_field p.1 p.2.1 p.2.2

/-- `image_to_field_matrix` (image_utils.rs): per-pixel `rgb_to_field` over
the raster, row-major. A `DynamicImage` is a rectangular raster; it is
modelled as its row-major list of pixel rows. -/
def image_to_field_matrix (image : List (List Rgb)) : List (List FpPix) :=
  image.map fun row => row.map encPix

/-- `field_matrix_to_image` (image_utils.rs). An empty matrix, or one whose
first row is empty, yields `DynamicImage::new_rgb8(1, 1)` — a 1×1 all-zero
image. Otherwise a `height × width` image (`width` = first-row length) is
created zero-initialised and every in-bounds matrix pixel is written into it
via `field_to_rgb`. (In Rust a row longer than the first row would make
`put_pixel` panic; every caller in the crate passes a rectangular matrix.) -/
def field_matrix_to_image (matrix : List (List FpPix)) : List (List Rgb) :=
  if matrix.isEmpty || (matrix.headI).isEmpty then
    [[(0, 0, 0)]]
  else
    let height := matrix.length
    let width := (matrix.headI).length
    (List.range height).map fun y =>
      (List.range width).map fun x =>
        match (matrix.get? y).bind fun row => row.get? x with
        | some p => field_to_rgb p
        | none => (0, 0, 0)

/-- Pixel lookup in a row-major matrix. -/
def pixAt (m : List (List α)) (y x : Nat) : Option α :=
  (m.get? y).bind fun row => row.get? x

/-- `(0..dim).step_by(step)` for `step ≥ 1`: the multiples of `step` below
`dim`, in increasing order. (Rust's `step_by` panics when `step = 0`;
callers that can reach that case are modelled with an explicit guard.) -/
def stepIndices (dim step : Nat) : List Nat :=
  (List.range ((dim + step - 1) / step)).map fun k => k * step

/-- Sequence a list of `Option`s: `some` of all values, or `none` if any
element is `none` — the model of a loop that panics on its first failing
iteration. -/
def collectSome : List (Option α) → Option (List α)
  | [] => some []
  | o :: rest => o.bind fun a => (collectSome rest).map fun l => a :: l

/-- The pixels sampled by `calculate_poseidon_image_hash` (image_utils.rs)
from a field-element matrix, before byte serialisation. `none` models a
panic: `sample_size = 0` makes `matrix.len() / sample_size` panic, and an
empty matrix makes the unconditional `matrix[0]` access panic. The outer
loop strides row indices by `max(1, matrix.len() / sample_size)` and the
inner loop strides column indices of row `y` by
`max(1, matrix[0].len() / sample_size)`, row-major. -/
def poseidonSampledPixels (matrix : List (List FpPix)) (sample_size : Nat) :
    Option (List FpPix) :=
  if sample_size = 0 then none
  else
    match matrix.get? 0 with
    | none => none
    | some row0 =>
      let step_y := max 1 (matrix.length / sample_size)
      let step_x := max 1 (row0.length / sample_size)
      (collectSome ((stepIndices matrix.length step_y).map fun y =>
        match matrix.get? y with
        | none => none
        | some row =>
          collectSome ((stepIndices row.length step_x).map fun x =>
            row.get? x))).map fun rows => rows.flatten

/-- `calculate_poseidon_image_hash` (image_utils.rs), up to the final SHA-256
call (the `sha2` crate is external to the repository): the `hash_input` byte
vector is the concatenation of `to_bytes` of each channel of each sampled
pixel of `image_to_field_matrix(image)`. -/
def calculate_poseidon_hash_input (image : List (List Rgb)) (sample_size : Nat) :
    Option (List Nat) :=
  (poseidonSampledPixels (image_to_field_matrix image) sample_size).map fun ps =>
    ps.flatMap fun p => p.1.to_bytes ++ p.2.1.to_bytes ++ p.2.2.to_bytes

/-- Rust slice `l[a..b]`: `none` models the panic when `a > b` or
`b > l.len()`. -/
def listSlice (l : List α) (a b : Nat) : Option (List α) :=
  if a ≤ b ∧ b ≤ l.length then some ((l.drop a).take (b - a)) else none

/-- `chunk_image` (image_utils.rs). Encodes the image, then for each
`chunk_y` striding `0..matrix.len()` and `chunk_x` striding
`0..matrix[0].len()` by `chunk_size`, slices the row range
`chunk_y..min(chunk_y + chunk_size, matrix.len())` and each row's column
range `chunk_x..min(chunk_x + chunk_size, matrix[0].len())`. `none` models a
panic: `step_by(0)` when `chunk_size = 0`, the unconditional `matrix[0]`
when the matrix is empty, or an out-of-range row slice. -/
def chunk_image (image : List (List Rgb)) (chunk_size : Nat) :
    Option (List (List (List FpPix))) :=
  let matrix := image_to_field_matrix image
  if chunk_size = 0 then none
  else
    match matrix.get? 0 with
    | none => none
    | some row0 =>
      collectSome
        ((stepIndices matrix.length chunk_size).flatMap fun chunk_y =>
          (stepIndices row0.length chunk_size).map fun chunk_x =>
            let end_y := min (chunk_y + chunk_size) matrix.length
            let end_x := min (chunk_x + chunk_size) row0.length
            (listSlice matrix chunk_y end_y).bind fun rows =>
              collectSome (rows.map fun row => listSlice row chunk_x end_x))

/-! ### `lib.rs`: the transformation catalogue and operation fusion -/

/-- An `f32` transformation parameter, carried by its 32-bit pattern. The
fusion pass only moves these values; no float arithmetic occurs in the
embedded code. -/
structure F32 where
  bits : Nat
  deriving DecidableEq, Repr

/-- `Transformation` (lib.rs): the tagged set of supported transformations.
`u32` fields are `Nat`, `i32` fields are `Int`, `f32` fields are `F32`. -/
inductive Transformation where
  | Crop (x y width height : Nat)
  | Resize (width height : Nat)
  | Rotate (degrees : F32)
  | FlipHorizontal
  | FlipVertical
  | Translate (dx dy : Int)
  | ToYCbCr
  | ToRGB
  | Grayscale
  | Sharpen
  | Blur
  | Contrast (c : F32)
  | Brightness (b : F32)
  | WhiteBalance
  | CropResize (crop_x crop_y crop_width crop_height resize_width resize_height : Nat)
  | GrayscaleContrast (contrast : F32)
  deriving DecidableEq, Repr

/-- `ZKIMGSystem::fuse_operations` (lib.rs): one forward scan; an adjacent
`(Crop, Resize)` pair becomes `CropResize`, an adjacent
`(Grayscale, Contrast)` pair becomes `GrayscaleContrast` (advancing two
positions), any other head element is emitted unchanged (advancing one). -/
def fuse_operations : List Transformation → List Transformation
  | .Crop x y w h :: .Resize rw rh :: rest =>
    .CropResize x y w h rw rh :: fuse_operations rest
  | .Grayscale :: .Contrast c :: rest =>
    .GrayscaleContrast c :: fuse_operations rest
  | t :: rest => t :: fuse_operations rest
  | [] => []

/-- Whether the first two elements of `t :: l` form one of the two fusable
pairs that `fuse_operations` recognises. -/
def headFusable (t : Transformation) (l : List Transformation) : Bool :=
  match t, l with
  | .Crop _ _ _ _, .Resize _ _ :: _ => true
  | .Grayscale, .Contrast _ :: _ => true
  | _, _ => false

/-! ### `circuits.rs`: the `ZKIMGCircuit` synthesis step -/

/-- `ZKIMGCircuit` (circuits.rs): witness pixel matrix (RGB triples of field
elements, `[height][width][3]`), transformation parameters, and the claimed
input/output hashes. -/
structure ZKIMGCircuit where
  image_pixels : List (List FpPix)
  transformation_params : List Fp
  input_hash : Fp
  output_hash : Fp

/-- `ZKIMGCircuit::apply_transformations` (circuits.rs lines 143–156): the
body ignores the transformation parameters and returns
`self.image_pixels.clone()` — an identity pass-through, marked in the source
as a placeholder. -/
def ZKIMGCircuit.apply_transformations (c : ZKIMGCircuit) : List (List FpPix) :=
  c.image_pixels

/-- The sequence of field elements fed to the Poseidon hasher by
`hash_image` / `hash_image_output` (circuits.rs): the r, g, b values of
each pixel in the window of the first `min(32, height)` rows and
`min(32, width)` columns, row-major. -/
def hashWindow (pixels : List (List FpPix)) : List Fp :=
  (pixels.take 32).flatMap fun row =>
    (row.take 32).flatMap fun p => [p.1, p.2.1, p.2.2]

/-- The two Poseidon digest pre-images produced by
`ZKIMGCircuit::synthesize` (circuits.rs lines 64–86), which are then
constrained against instance columns 0 and 1: `hash_image` absorbs the
window of `image_pixels`, `hash_image_output` absorbs the window of
`apply_transformations`'s result. -/
structure SynthesisDigests where
  inputPreimage : List Fp
  outputPreimage : List Fp
  deriving DecidableEq

/-- `ZKIMGCircuit::synthesize`, restricted to the data each digest is
computed over (the Poseidon permutation itself is a `halo2_gadgets` gadget
external to the repository). -/
def ZKIMGCircuit.synthesizeDigests (c : ZKIMGCircuit) : SynthesisDigests :=
  { inputPreimage := hashWindow c.image_pixels
    outputPreimage := hashWindow c.apply_transformations }

/-! ### `recursive_circuit.rs`: the `RecursiveZKIMGCircuit` synthesis step -/

/-- `RecursiveZKIMGCircuit` (recursive_circuit.rs): optional previous proof
bytes, optional previous 32-byte hash, image rows as bytes, the current
transformation and the recursion depth. -/
structure RecursiveZKIMGCircuit where
  previous_proof : Option (List Nat)
  previous_hash : Option (List Nat)
  image_data : List (List Nat)
  transformation : Transformation
  recursion_depth : Nat

/-- The witness-relevant content of `RecursiveZKIMGCircuit::synthesize`
(recursive_circuit.rs lines 85–176): every advice value assigned and every
equality constraint imposed. -/
structure RecursiveSynthesisTrace where
  /-- Values assigned in the "proof verification" region (depth > 0 only). -/
  proofVerificationAssignments : List Fp
  /-- Equality constraints tying the previous output hash to the current
  input hash. The "hash verification" region's closure body is `Ok(())`:
  it assigns nothing and constrains nothing. -/
  hashContinuityConstraints : List (Fp × Fp)
  /-- Result of the "apply transformation" region. -/
  transformedData : List (List Nat)
  /-- Result of the "poseidon hash" region (`[0u8; 32]` placeholder). -/
  outputHashValue : List Nat
  /-- Values assigned in the "public exposure" region. -/
  publicExposureAssignments : List Fp
  deriving DecidableEq

/-- `RecursiveZKIMGCircuit::synthesize`. For `recursion_depth > 0` the
"proof verification" region assigns the constant `Fp::from(1u64)` to the
`proof_verification` advice cell — independent of `previous_proof` — and the
"hash verification" region (entered when `previous_hash` is `Some`) performs
no assignment and imposes no constraint. The transformation match returns
`image_data.clone()` in every arm, the output-hash region returns the
placeholder `[0u8; 32]`, and the public-exposure region assigns
`Fp::from(recursion_depth)`. -/
def RecursiveZKIMGCircuit.synthesize (c : RecursiveZKIMGCircuit) :
    RecursiveSynthesisTrace :=
  { proofVerificationAssignments :=
      if 0 < c.recursion_depth then [Fp.ofNat 1] else []
    hashContinuityConstraints := []
    transformedData :=
      match c.transformation with
      | .Crop _ _ _ _ => c.image_data
      | .Resize _ _ => c.image_data
      | _ => c.image_data
    outputHashValue := List.replicate 32 0
    publicExposureAssignments := [Fp.ofNat c.recursion_depth] }

/-! ### `proof_system.rs`: verification, tiling and aggregation -/

/-- Outcome of the external `halo2_proofs::plonk::verify_proof` call inside
`ZKIMGProofSystem::verify`. Reading a malformed proof byte stream through
the `Blake2bRead` transcript surfaces as an `Err` from `verify_proof`, the
same `Err` channel as a well-formed but cryptographically invalid proof. -/
inductive VerifyProofOutcome where
  /-- `verify_proof` accepted the proof. -/
  | accepted
  /-- `verify_proof` rejected a structurally well-formed proof as
  cryptographically invalid. -/
  | invalidProof
  /-- `verify_proof` failed while deserialising a malformed byte stream
  from the transcript. -/
  | malformedStream
  deriving DecidableEq

/-- `ZKIMGProofSystem::verify` (proof_system.rs lines 73–99): the result of
the `verify_proof` call is matched; `Ok(_)` becomes `Ok(true)` and every
`Err(_)` becomes `Ok(false)`. The function body has no path returning
`Err`. The result type models `anyhow::Result<bool>`. -/
def ZKIMGProofSystem.verify (result : VerifyProofOutcome) : Except String Bool :=
  match result with
  | .accepted => .ok true
  | _ => .ok false

/-- A tile `(x, y, width, height)` as pushed by `tile_hd_image`. -/
abbrev Tile := Nat × Nat × Nat × Nat

/-- `HDProcessor` (proof_system.rs lines 174–177). -/
structure HDProcessor where
  tile_size : Nat
  max_tiles : Nat
  deriving DecidableEq, Repr

/-- `HDProcessor::new` (proof_system.rs lines 180–185). -/
def HDProcessor.new : HDProcessor :=
  { tile_size := 256, max_tiles := 20 }

/-- Inner loop of `tile_hd_image`: `for x in (0..width).step_by(tile_size)`.
Pushes `(x, y, min(tile_size, width - x), min(tile_size, height - y))` and
breaks once the accumulated tile count reaches `max_tiles`. -/
def tileInnerLoop (tsz mt width height y : Nat) :
    List Nat → List Tile → List Tile
  | [], acc => acc
  | x :: rest, acc =>
    if mt ≤ (acc ++ [(x, y, min tsz (width - x), min tsz (height - y))]).length
    then acc ++ [(x, y, min tsz (width - x), min tsz (height - y))]
    else tileInnerLoop tsz mt width height y rest
      (acc ++ [(x, y, min tsz (width - x), min tsz (height - y))])

/-- Outer loop of `tile_hd_image`: `for y in (0..height).step_by(tile_size)`,
breaking once the accumulated tile count reaches `max_tiles`. -/
def tileOuterLoop (tsz mt width height : Nat) (xs : List Nat) :
    List Nat → List Tile → List Tile
  | [], acc => acc
  | y :: rest, acc =>
    if mt ≤ (tileInnerLoop tsz mt width height y xs acc).length
    then tileInnerLoop tsz mt width height y xs acc
    else tileOuterLoop tsz mt width height xs rest
      (tileInnerLoop tsz mt width height y xs acc)

/-- `HDProcessor::tile_hd_image` (proof_system.rs lines 188–209). -/
def HDProcessor.tile_hd_image (p : HDProcessor) (width height : Nat) : List Tile :=
  tileOuterLoop p.tile_size p.max_tiles width height
    (stepIndices width p.tile_size) (stepIndices height p.tile_size) []

/-- `HDProcessor::aggregate_tile_proofs` (proof_system.rs lines 212–232):
errors on an empty list, returns the single proof unchanged for one tile,
and otherwise concatenates the tile-proof byte strings. -/
def HDProcessor.aggregate_tile_proofs (tile_proofs : List (List Nat)) :
    Except String (List Nat) :=
  if tile_proofs.isEmpty then .error "No tile proofs to aggregate"
  else if tile_proofs.length = 1 then .ok tile_proofs.headI
  else .ok tile_proofs.flatten

/-- `ProofAggregator::aggregate` (recursive_circuit.rs lines 202–210):
returns the mock constant `vec![0u8; 192]` whatever proofs were added. -/
def ProofAggregator.aggregate (_proofs : List (List Nat)) : Except String (List Nat) :=
  .ok (List.replicate 192 0)

/-! ### Spec-side definitions

These follow the spec's words, for comparison with the source definitions
above. -/

/-- The uncapped row-major tiling the spec describes: for each row start
`y ∈ {0, T, 2T, …} ∩ [0, H)` and column start `x ∈ {0, T, 2T, …} ∩ [0, W)`,
the tile at `(x, y)` clipped to the image edges. -/
def rowMajorTiles (T width height : Nat) : List Tile :=
  (stepIndices height T).flatMap fun y =>
    (stepIndices width T).map fun x =>
      (x, y, min T (width - x), min T (height - y))

/-- A tile covers the pixel `(px, py)`. -/
def coversPoint (t : Tile) (px py : Nat) : Prop :=
  t.1 ≤ px ∧ px < t.1 + t.2.2.1 ∧ t.2.1 ≤ py ∧ py < t.2.1 + t.2.2.2

instance (t : Tile) (px py : Nat) : Decidable (coversPoint t px py) := by
  unfold coversPoint; infer_instance

/-- The hash-input pixel selection the spec and claim describe for
`calculate_poseidon_image_hash`: the field-encoded pixels at row indices
`0, s_y, 2·s_y, …` below the height and column indices `0, s_x, 2·s_x, …`
below the width, row-major, where `s_y = max(1, height / sampleCount)` and
`s_x = max(1, width / sampleCount)`. -/
def claimSampledPixels (image : List (List Rgb)) (sampleCount : Nat) :
    List FpPix :=
  let height := image.length
  let width := (image.headI).length
  let s_y := max 1 (height / sampleCount)
  let s_x := max 1 (width / sampleCount)
  (stepIndices height s_y).flatMap fun y =>
    (stepIndices width s_x).map fun x =>
      encPix ((image.getD y []).getD x (0, 0, 0))

end ZkImg


/-! ### Helper lemmas -/

namespace ZkImg

theorem lt_ceil_div_iff {s : Nat} (hs : 1 ≤ s) (k d : Nat) :
    k < (d + s - 1) / s ↔ k * s < d := by
  have h1 : k < (d + s - 1) / s ↔ k + 1 ≤ (d + s - 1) / s := Iff.rfl
  rw [h1, Nat.le_div_iff_mul_le (Nat.lt_of_lt_of_le Nat.zero_lt_one hs)]
  have h2 : (k + 1) * s = k * s + s := by ring
  rw [h2]
  generalize k * s = m
  omega

theorem stepIndices_mem_iff {step : Nat} (hs : 1 ≤ step) {dim u : Nat} :
    u ∈ stepIndices dim step ↔ step ∣ u ∧ u < dim := by
  unfold stepIndices
  simp only [List.mem_map, List.mem_range]
  constructor
  · rintro ⟨k, hk, rfl⟩
    exact ⟨⟨k, Nat.mul_comm k step⟩, (lt_ceil_div_iff hs k dim).mp hk⟩
  · rintro ⟨⟨k, rfl⟩, hlt⟩
    refine ⟨k, (lt_ceil_div_iff hs k dim).mpr ?_, Nat.mul_comm k step⟩
    rwa [Nat.mul_comm k step]

theorem stepIndices_length (dim step : Nat) :
    (stepIndices dim step).length = (dim + step - 1) / step := by
  simp [stepIndices]

theorem collectSome_map_some {f : α → Option β} {g : α → β} :
    ∀ {l : List α}, (∀ a ∈ l, f a = some (g a)) →
      collectSome (l.map f) = some (l.map g)
  | [], _ => rfl
  | a :: rest, h => by
    have ha : f a = some (g a) := h a (List.mem_cons_self a rest)
    have hrest := collectSome_map_some (l := rest) fun b hb => h b (List.mem_cons_of_mem a hb)
    simp [collectSome, ha, hrest]

theorem collectSome_isSome {l : List (Option α)} :
    (∀ o ∈ l, o.isSome) → (collectSome l).isSome := by
  induction l with
  | nil => intro _; rfl
  | cons o rest ih =>
    intro h
    have ho := h o (List.mem_cons_self o rest)
    have hrest := ih fun p hp => h p (List.mem_cons_of_mem o hp)
    rcases Option.isSome_iff_exists.mp ho with ⟨a, rfl⟩
    rcases Option.isSome_iff_exists.mp hrest with ⟨as, has⟩
    simp [collectSome, has]

set_option maxRecDepth 4096 in
theorem land_255_of_lt {n : Nat} (h : n < 256) : n &&& 255 = n := by
  revert h
  revert n
  decide

theorem fp_channel_roundtrip {n : Nat} (h : n < 256) :
    (Fp.ofNat n).get_lower_32 &&& 0xFF = n := by
  have hp : n < pallasP := Nat.lt_of_lt_of_le h (by norm_num [pallasP])
  have h32 : n < 2 ^ 32 := Nat.lt_of_lt_of_le h (by norm_num)
  simp only [Fp.ofNat, Fp.get_lower_32, Nat.mod_eq_of_lt hp, Nat.mod_eq_of_lt h32]
  exact land_255_of_lt h

theorem field_rgb_roundtrip {r g b : Nat} (hr : r < 256) (hg : g < 256)
    (hb : b < 256) : field_to_rgb (rgb_to_field r g b) = (r, g, b) := by
  simp [field_to_rgb, rgb_to_field, fp_channel_roundtrip, hr, hg, hb]

theorem encPix_roundtrip {p : Rgb} (h1 : p.1 < 256) (h2 : p.2.1 < 256)
    (h3 : p.2.2 < 256) : field_to_rgb (encPix p) = p :=
  field_rgb_roundtrip h1 h2 h3

theorem get?_eq_some_getD {l : List α} {n : Nat} {v : α} (d : α)
    (h : l.get? n = some v) : l.getD n d = v := by
  rw [List.get?_eq_getElem?] at h
  simp [List.getD_eq_getElem?_getD, h]


/-- The tile written for starts `(x, y)` by `tile_hd_image`. -/
def tileAt (T W H x y : Nat) : Tile := (x, y, min T (W - x), min T (H - y))

theorem flatMap_map_length (f : Nat → Nat → Tile) (xs : List Nat) :
    ∀ ys : List Nat,
      (ys.flatMap fun y => xs.map fun x => f x y).length = ys.length * xs.length
  | [] => by simp
  | y :: rest => by
    simp [List.flatMap_cons, flatMap_map_length f xs rest, Nat.succ_mul, Nat.add_comm]

theorem tileInnerLoop_no_cap (tsz mt W H y : Nat) :
    ∀ (xs : List Nat) (acc : List Tile), acc.length + xs.length ≤ mt →
      tileInnerLoop tsz mt W H y xs acc
        = acc ++ xs.map fun x => tileAt tsz W H x y
  | [], acc, _ => by simp [tileInnerLoop]
  | [x], acc, _ => by
    rw [tileInnerLoop]
    split <;> simp [tileInnerLoop, tileAt]
  | x :: x2 :: rest, acc, h => by
    have hlen : ¬ mt ≤ (acc ++ [(x, y, min tsz (W - x), min tsz (H - y))]).length := by
      simp only [List.length_append, List.length_cons, List.length_nil] at h ⊢
      omega
    have hrec := tileInnerLoop_no_cap tsz mt W H y (x2 :: rest)
      (acc ++ [(x, y, min tsz (W - x), min tsz (H - y))])
      (by simp only [List.length_append, List.length_cons, List.length_nil] at h ⊢; omega)
    rw [tileInnerLoop, if_neg hlen, hrec]
    simp [tileAt]

theorem tileOuterLoop_no_cap (tsz mt W H : Nat) (xs : List Nat) :
    ∀ (ys : List Nat) (acc : List Tile),
      acc.length + ys.length * xs.length ≤ mt →
      tileOuterLoop tsz mt W H xs ys acc
        = acc ++ ys.flatMap fun y => xs.map fun x => tileAt tsz W H x y
  | [], acc, _ => by simp [tileOuterLoop]
  | y :: rest, acc, h => by
    have hbound : acc.length + xs.length + rest.length * xs.length ≤ mt := by
      simp only [List.length_cons, Nat.succ_mul] at h
      omega
    have hrow : acc.length + xs.length ≤ mt := by omega
    have hinner := tileInnerLoop_no_cap tsz mt W H y xs acc hrow
    rw [tileOuterLoop, hinner]
    by_cases hc : mt ≤ (acc ++ xs.map fun x => tileAt tsz W H x y).length
    · have hz : rest.length * xs.length = 0 := by
        simp only [List.length_append, List.length_map] at hc
        omega
      have hnil : (rest.flatMap fun y => xs.map fun x => tileAt tsz W H x y) = [] :=
        List.length_eq_zero.mp (by rw [flatMap_map_length]; exact hz)
      rw [if_pos hc]
      simp [List.flatMap_cons, hnil]
    · have hrec := tileOuterLoop_no_cap tsz mt W H xs rest
        (acc ++ xs.map fun x => tileAt tsz W H x y)
        (by simp only [List.length_append, List.length_map]; omega)
      rw [if_neg hc, hrec]
      simp [List.flatMap_cons]

theorem rowMajorTiles_eq_flatMap (T W H : Nat) :
    rowMajorTiles T W H
      = (stepIndices H T).flatMap fun y =>
          (stepIndices W T).map fun x => tileAt T W H x y := rfl

theorem rowMajorTiles_length (T W H : Nat) :
    (rowMajorTiles T W H).length
      = (stepIndices H T).length * (stepIndices W T).length := by
  rw [rowMajorTiles_eq_flatMap, flatMap_map_length]

theorem tile_hd_image_no_cap (T mt W H : Nat)
    (hcap : (rowMajorTiles T W H).length ≤ mt) :
    HDProcessor.tile_hd_image ⟨T, mt⟩ W H = rowMajorTiles T W H := by
  have h := tileOuterLoop_no_cap T mt W H (stepIndices W T) (stepIndices H T) []
    (by
      rw [rowMajorTiles_length] at hcap
      simpa using hcap)
  simpa [HDProcessor.tile_hd_image, rowMajorTiles_eq_flatMap] using h

theorem mem_rowMajorTiles {T : Nat} (hT : 1 ≤ T) {W H : Nat} {t : Tile} :
    t ∈ rowMajorTiles T W H ↔
      ∃ x y, T ∣ x ∧ x < W ∧ T ∣ y ∧ y < H ∧ t = tileAt T W H x y := by
  rw [rowMajorTiles_eq_flatMap]
  simp only [List.mem_flatMap, List.mem_map]
  constructor
  · rintro ⟨y, hy, x, hx, rfl⟩
    rcases (stepIndices_mem_iff hT).mp hy with ⟨hdy, hylt⟩
    rcases (stepIndices_mem_iff hT).mp hx with ⟨hdx, hxlt⟩
    exact ⟨x, y, hdx, hxlt, hdy, hylt, rfl⟩
  · rintro ⟨x, y, hdx, hxlt, hdy, hylt, rfl⟩
    exact ⟨y, (stepIndices_mem_iff hT).mpr ⟨hdy, hylt⟩,
      x, (stepIndices_mem_iff hT).mpr ⟨hdx, hxlt⟩, rfl⟩

theorem div_mul_cover {T : Nat} (p : Nat) (hT : 1 ≤ T) :
    p / T * T ≤ p ∧ p < p / T * T + T := by
  have h0 : 0 < T := hT
  have hdm := Nat.div_add_mod' p T
  have hm := Nat.mod_lt p h0
  omega

theorem covering_start_unique {T p q : Nat}
    (hle : q * T ≤ p) (hlt : p < q * T + T) : q = p / T :=
  (Nat.div_eq_of_lt_le hle (by rw [Nat.succ_mul]; omega)).symm

theorem coversPoint_tileAt_iff {T W H x y px py : Nat}
    (hxW : x < W) (hyH : y < H) (hpx : px < W) (hpy : py < H) :
    coversPoint (tileAt T W H x y) px py ↔
      (x ≤ px ∧ px < x + T) ∧ (y ≤ py ∧ py < y + T) := by
  unfold coversPoint tileAt
  simp only
  constructor
  · rintro ⟨h1, h2, h3, h4⟩
    refine ⟨⟨h1, ?_⟩, h3, ?_⟩
    · have : min T (W - x) ≤ T := Nat.min_le_left _ _
      omega
    · have : min T (H - y) ≤ T := Nat.min_le_left _ _
      omega
  · rintro ⟨⟨h1, h2⟩, h3, h4⟩
    refine ⟨h1, ?_, h3, ?_⟩
    · rcases Nat.le_total T (W - x) with hmin | hmin
      · rw [Nat.min_eq_left hmin]; omega
      · rw [Nat.min_eq_right hmin]; omega
    · rcases Nat.le_total T (H - y) with hmin | hmin
      · rw [Nat.min_eq_left hmin]; omega
      · rw [Nat.min_eq_right hmin]; omega

theorem rowMajor_cover_exists_unique {T W H px py : Nat} (hT : 1 ≤ T)
    (hpx : px < W) (hpy : py < H) :
    ∃! t, t ∈ rowMajorTiles T W H ∧ coversPoint t px py := by
  have hx := div_mul_cover px hT
  have hy := div_mul_cover py hT
  have hxW : px / T * T < W := Nat.lt_of_le_of_lt hx.1 hpx
  have hyH : py / T * T < H := Nat.lt_of_le_of_lt hy.1 hpy
  refine ⟨tileAt T W H (px / T * T) (py / T * T), ⟨?_, ?_⟩, ?_⟩
  · exact (mem_rowMajorTiles hT).mpr
      ⟨px / T * T, py / T * T, ⟨px / T, Nat.mul_comm _ _⟩, hxW,
        ⟨py / T, Nat.mul_comm _ _⟩, hyH, rfl⟩
  · exact (coversPoint_tileAt_iff hxW hyH hpx hpy).mpr ⟨⟨hx.1, hx.2⟩, hy.1, hy.2⟩
  · rintro t ⟨hmem, hcov⟩
    rcases (mem_rowMajorTiles hT).mp hmem with ⟨x, y, ⟨a, rfl⟩, hxlt, ⟨b, rfl⟩, hylt, rfl⟩
    have hc := (coversPoint_tileAt_iff hxlt hylt hpx hpy).mp hcov
    have ha : a = px / T := covering_start_unique
      (by rw [Nat.mul_comm]; exact hc.1.1) (by rw [Nat.mul_comm]; exact hc.1.2)
    have hb : b = py / T := covering_start_unique
      (by rw [Nat.mul_comm]; exact hc.2.1) (by rw [Nat.mul_comm]; exact hc.2.2)
    subst ha
    subst hb
    rw [Nat.mul_comm T (px / T), Nat.mul_comm T (py / T)]

theorem listSlice_isSome {l : List α} {a b : Nat} (h1 : a ≤ b)
    (h2 : b ≤ l.length) : listSlice l a b = some ((l.drop a).take (b - a)) :=
  if_pos ⟨h1, h2⟩

theorem get?_of_lt {l : List α} {n : Nat} (h : n < l.length) :
    l.get? n = some (l.getD n d) := by
  cases hg : l.get? n with
  | none => exact absurd (List.get?_eq_none.mp hg) (Nat.not_le.mpr h)
  | some v => rw [get?_eq_some_getD d hg]

/-- Under the preconditions of the spec (non-empty rectangular image,
positive sample count), `calculate_poseidon_image_hash` samples exactly the
pixels described by the claim: row indices `0, s_y, 2·s_y, …` and column
indices `0, s_x, 2·s_x, …`, row-major. -/
theorem poseidonSampledPixels_rect (image : List (List Rgb)) (W : Nat)
    (hH : 1 ≤ image.length) (_hW : 1 ≤ W)
    (hrect : ∀ row ∈ image, row.length = W)
    (s : Nat) (hs : 1 ≤ s) :
    poseidonSampledPixels (image_to_field_matrix image) s
      = some (claimSampledPixels image s) := by
  rcases image with _ | ⟨r0, rows⟩
  · simp at hH
  have hr0len : r0.length = W := hrect r0 (List.mem_cons_self r0 rows)
  have hmatlen : (image_to_field_matrix (r0 :: rows)).length
      = (r0 :: rows).length := by simp [image_to_field_matrix]
  have hs0 : ¬ s = 0 := by omega
  have hget0 : (image_to_field_matrix (r0 :: rows)).get? 0
      = some (r0.map encPix) := rfl
  unfold poseidonSampledPixels
  rw [if_neg hs0]
  split
  · rename_i heq
    rw [hget0] at heq
    cases heq
  · rename_i row0 heq
    rw [hget0] at heq
    cases heq
    have hrow0len : (r0.map encPix).length = W := by simp [hr0len]
    show Option.map (fun rws => rws.flatten)
      (collectSome ((stepIndices (image_to_field_matrix (r0 :: rows)).length
          (max 1 ((image_to_field_matrix (r0 :: rows)).length / s))).map fun y =>
        match (image_to_field_matrix (r0 :: rows)).get? y with
        | none => none
        | some row =>
          collectSome ((stepIndices row.length
            (max 1 ((r0.map encPix).length / s))).map fun x => row.get? x)))
      = some (claimSampledPixels (r0 :: rows) s)
    rw [hmatlen, hrow0len]
    have hsy1 : 1 ≤ max 1 ((r0 :: rows).length / s) := Nat.le_max_left _ _
    have hsx1 : 1 ≤ max 1 (W / s) := Nat.le_max_left _ _
    have houter : ∀ y ∈ stepIndices (r0 :: rows).length
        (max 1 ((r0 :: rows).length / s)),
        (match (image_to_field_matrix (r0 :: rows)).get? y with
          | none => none
          | some row =>
            collectSome ((stepIndices row.length (max 1 (W / s))).map
              fun x => row.get? x))
          = some ((stepIndices W (max 1 (W / s))).map
              fun x => encPix (((r0 :: rows).getD y []).getD x (0, 0, 0))) := by
      intro y hy
      have hylt : y < (r0 :: rows).length := ((stepIndices_mem_iff hsy1).mp hy).2
      obtain ⟨rowy, hrowy⟩ : ∃ r, (r0 :: rows).get? y = some r := by
        cases hg : (r0 :: rows).get? y with
        | none => exact absurd (List.get?_eq_none.mp hg) (Nat.not_le.mpr hylt)
        | some r => exact ⟨r, rfl⟩
      have hrowylen : rowy.length = W := hrect rowy (List.get?_mem hrowy)
      have hgetDy : (r0 :: rows).getD y [] = rowy := get?_eq_some_getD [] hrowy
      have hmy : (image_to_field_matrix (r0 :: rows)).get? y
          = some (rowy.map encPix) := by
        unfold image_to_field_matrix
        rw [List.get?_map, hrowy]
        rfl
      rw [hmy]
      have hmylen : (rowy.map encPix).length = W := by simp [hrowylen]
      have hinner : ∀ x ∈ stepIndices W (max 1 (W / s)),
          (rowy.map encPix).get? x = some (encPix (rowy.getD x (0, 0, 0))) := by
        intro x hx
        have hxlt : x < W := ((stepIndices_mem_iff hsx1).mp hx).2
        rw [List.get?_map,
          get?_of_lt (d := ((0 : Nat), (0 : Nat), (0 : Nat)))
            (by rw [hrowylen]; exact hxlt)]
        rfl
      show collectSome ((stepIndices (rowy.map encPix).length
          (max 1 (W / s))).map fun x => (rowy.map encPix).get? x)
          = _
      rw [hmylen, collectSome_map_some hinner, hgetDy]
    rw [collectSome_map_some houter]
    unfold claimSampledPixels
    simp only [List.headI, List.length_cons, hr0len, Option.map_some']
    congr 1

theorem matrix_row_length {image : List (List Rgb)} {W : Nat}
    (hrect : ∀ row ∈ image, row.length = W) :
    ∀ row ∈ image_to_field_matrix image, row.length = W := by
  intro row hrow
  unfold image_to_field_matrix at hrow
  rcases List.mem_map.mp hrow with ⟨orig, horig, rfl⟩
  simp [hrect orig horig]

/-- Under the spec preconditions plus a positive chunk size, every slice
taken by `chunk_image` is in range, so no iteration panics. -/
theorem chunk_image_isSome (image : List (List Rgb)) (W : Nat)
    (hH : 1 ≤ image.length) (hW : 1 ≤ W)
    (hrect : ∀ row ∈ image, row.length = W)
    (cs : Nat) (hcs : 1 ≤ cs) : (chunk_image image cs).isSome := by
  rcases image with _ | ⟨r0, rows⟩
  · simp at hH
  have hr0len : r0.length = W := hrect r0 (List.mem_cons_self r0 rows)
  have hmatlen : (image_to_field_matrix (r0 :: rows)).length
      = (r0 :: rows).length := by simp [image_to_field_matrix]
  have hcs0 : ¬ cs = 0 := by omega
  have hget0 : (image_to_field_matrix (r0 :: rows)).get? 0
      = some (r0.map encPix) := rfl
  unfold chunk_image
  rw [if_neg hcs0]
  split
  · rename_i heq
    rw [hget0] at heq
    cases heq
  · rename_i row0 heq
    rw [hget0] at heq
    cases heq
    have hrow0len : (r0.map encPix).length = W := by simp [hr0len]
    apply collectSome_isSome
    intro o ho
    rcases List.mem_flatMap.mp ho with ⟨chunk_y, hcy, hoin⟩
    rcases List.mem_map.mp hoin with ⟨chunk_x, hcx, rfl⟩
    have hcylt : chunk_y < (image_to_field_matrix (r0 :: rows)).length :=
      ((stepIndices_mem_iff hcs).mp hcy).2
    have hcxlt : chunk_x < W := by
      have := ((stepIndices_mem_iff hcs).mp hcx).2
      rwa [hrow0len] at this
    have hslice := listSlice_isSome (l := image_to_field_matrix (r0 :: rows))
      (a := chunk_y)
      (b := min (chunk_y + cs) (image_to_field_matrix (r0 :: rows)).length)
      (Nat.le_min.mpr ⟨Nat.le_add_right _ _, Nat.le_of_lt hcylt⟩)
      (Nat.min_le_right _ _)
    simp only [hslice, Option.some_bind]
    apply collectSome_isSome
    intro o2 ho2
    rcases List.mem_map.mp ho2 with ⟨row, hrowm, rfl⟩
    have hrowlen : row.length = W := by
      apply matrix_row_length hrect
      exact List.mem_of_mem_drop (List.mem_of_mem_take hrowm)
    have := listSlice_isSome (l := row) (a := chunk_x)
      (b := min (chunk_x + cs) (r0.map encPix).length)
      (Nat.le_min.mpr ⟨Nat.le_add_right _ _,
        by rw [hrow0len]; exact Nat.le_of_lt hcxlt⟩)
      (by rw [hrow0len, ← hrowlen]; exact Nat.min_le_right _ _)
    rw [this]
    rfl

end ZkImg


/-! ### Claim theorems -/

namespace ZkImg

/-- A circuit whose parameters describe a non-trivial transformation (a crop
to the top-left unit square of a 1×2 image); used to exhibit the identity
pass-through concretely. -/
def cropParamCircuit : ZKIMGCircuit :=
  { image_pixels := [[rgb_to_field 9 8 7, rgb_to_field 1 2 3]]
    transformation_params := [Fp.ofNat 0, Fp.ofNat 0, Fp.ofNat 1, Fp.ofNat 1]
    input_hash := Fp.zero
    output_hash := Fp.zero }

/-- C1: in `ZKIMGCircuit::synthesize` the transformation step is an identity
pass-through, not a dedicated per-variant sub-circuit: for every circuit
`apply_transformations` returns the witness pixels unchanged, so the
`output_hash` digest is computed over the same pixel window as the
`input_hash` digest — also exhibited on a circuit carrying crop parameters,
whose output digest pre-image equals its input digest pre-image even though
the crop of the pixels differs from the pixels themselves. -/
theorem C1_transformation_is_identity_passthrough :
    (∀ c : ZKIMGCircuit, c.apply_transformations = c.image_pixels)
    ∧ (∀ c : ZKIMGCircuit,
        c.synthesizeDigests.outputPreimage = hashWindow c.image_pixels)
    ∧ cropParamCircuit.synthesizeDigests.outputPreimage
      = cropParamCircuit.synthesizeDigests.inputPreimage
    ∧ cropParamCircuit.apply_transformations ≠ [[rgb_to_field 9 8 7]] :=
  ⟨fun _ => rfl, fun _ => rfl, rfl, by decide⟩

/-- A depth-1 recursive circuit whose embedded "previous proof" is garbage
and whose previous hash is an arbitrary digest. -/
def badPriorProofCircuit : RecursiveZKIMGCircuit :=
  { previous_proof := some [222, 173, 190, 239]
    previous_hash := some (List.replicate 32 255)
    image_data := [[0, 0, 0]]
    transformation := .Crop 0 0 1 1
    recursion_depth := 1 }

/-- C2: `RecursiveZKIMGCircuit::synthesize` does not verify the embedded
previous proof and imposes no hash-continuity constraint: the synthesis
trace is identical for any two witnesses differing only in `previous_proof`
and `previous_hash`, and on a depth-1 circuit carrying a garbage prior
proof the "proof verification" region assigns the constant `1` while the
hash-verification region contributes no constraint — so a witness with an
invalid prior proof or broken hash link satisfies the same constraints as
any other. -/
theorem C2_recursive_synthesize_accepts_any_prior_proof :
    (∀ (pp pp2 ph ph2 : Option (List Nat)) (img : List (List Nat))
      (tr : Transformation) (d : Nat),
      RecursiveZKIMGCircuit.synthesize ⟨pp, ph, img, tr, d⟩
        = RecursiveZKIMGCircuit.synthesize ⟨pp2, ph2, img, tr, d⟩)
    ∧ badPriorProofCircuit.synthesize.proofVerificationAssignments = [Fp.ofNat 1]
    ∧ badPriorProofCircuit.synthesize.hashContinuityConstraints = [] :=
  ⟨fun _ _ _ _ _ _ _ => rfl, rfl, rfl⟩

/-- C3: for two or more tile proofs, `HDProcessor::aggregate_tile_proofs`
returns the plain concatenation of the tile-proof byte strings — not a
Merkle commitment — and `ProofAggregator::aggregate` returns a constant
mock byte string independent of its input. -/
theorem C3_aggregation_is_plain_concatenation :
    (∀ (p q : List Nat) (rest : List (List Nat)),
      HDProcessor.aggregate_tile_proofs (p :: q :: rest)
        = .ok ((p :: q :: rest).flatten))
    ∧ HDProcessor.aggregate_tile_proofs [[1], [2]] = .ok [1, 2]
    ∧ ProofAggregator.aggregate [[1], [2]] = .ok (List.replicate 192 0) := by
  refine ⟨?_, rfl, rfl⟩
  intro p q rest
  simp [HDProcessor.aggregate_tile_proofs]

/-- C4 counterexample: when `verify_proof` fails on a malformed proof byte
stream, `ZKIMGProofSystem::verify` returns `Ok(false)` — not the hard error
the claim requires for exactly that case. -/
theorem C4_verify_malformed_stream_not_hard_error :
    ZKIMGProofSystem.verify .malformedStream = .ok false := rfl

/-- C4 (amended): `verify` never returns a hard error; it returns
`Ok(true)` exactly when `verify_proof` accepts, and `Ok(false)` for every
`verify_proof` failure — cryptographically invalid proofs and malformed
byte streams alike. -/
theorem C4_verify_never_hard_errors (r : VerifyProofOutcome) :
    (∀ e : String, ZKIMGProofSystem.verify r ≠ .error e)
    ∧ (ZKIMGProofSystem.verify r = .ok true ↔ r = .accepted)
    ∧ (ZKIMGProofSystem.verify r = .ok false ↔ r ≠ .accepted) := by
  cases r <;> simp [ZKIMGProofSystem.verify]

/-- C6: `fuse_operations` is the single left-to-right pass the claim
describes: an adjacent `(Crop, Resize)` pair fuses to `CropResize`, an
adjacent `(Grayscale, Contrast)` pair fuses to `GrayscaleContrast` (both
consuming two elements, the remainder fused recursively, the fused output
never re-scanned), any head element not starting a fusable pair is emitted
unchanged, and the chain of Scenario B fuses to exactly
`[CropResize{0,0,100,100,50,50}, GrayscaleContrast{1.2}]`. -/
theorem C6_fuse_operations_single_pass :
    (∀ (x y w h rw rh : Nat) (rest : List Transformation),
      fuse_operations (.Crop x y w h :: .Resize rw rh :: rest)
        = .CropResize x y w h rw rh :: fuse_operations rest)
    ∧ (∀ (c : F32) (rest : List Transformation),
      fuse_operations (.Grayscale :: .Contrast c :: rest)
        = .GrayscaleContrast c :: fuse_operations rest)
    ∧ (∀ (t : Transformation) (l : List Transformation),
      headFusable t l = false → fuse_operations (t :: l) = t :: fuse_operations l)
    ∧ fuse_operations
        [.Crop 0 0 100 100, .Resize 50 50, .Grayscale, .Contrast ⟨0x3F99999A⟩]
      = [.CropResize 0 0 100 100 50 50, .GrayscaleContrast ⟨0x3F99999A⟩] := by
  refine ⟨fun _ _ _ _ _ _ _ => rfl, fun _ _ => rfl, ?_, by decide⟩
  intro t l h
  cases t <;> rcases l with _ | ⟨u, rest⟩ <;>
    first
      | rfl
      | (cases u <;> first | rfl | simp [headFusable] at h)

/-- C6 witness: a head element that starts no fusable pair (`Blur` before
`Grayscale`) is emitted unchanged. -/
theorem C6_fuse_operations_single_pass_witness :
    headFusable .Blur [.Grayscale] = false
    ∧ fuse_operations [.Blur, .Grayscale]
      = .Blur :: fuse_operations [.Grayscale] :=
  ⟨by decide, C6_fuse_operations_single_pass.2.2.1 .Blur [.Grayscale] (by decide)⟩

/-- C10: decoding an empty matrix, or a matrix whose first row is empty,
yields a freshly created 1×1 all-zero RGB image — not an error and not a
zero-sized image — so on these inputs `decode` does not invert `encode`. -/
theorem C10_decode_empty_matrix_one_by_one :
    field_matrix_to_image ([] : List (List FpPix)) = [[(0, 0, 0)]]
    ∧ field_matrix_to_image [([] : List FpPix)] = [[(0, 0, 0)]]
    ∧ field_matrix_to_image (image_to_field_matrix []) ≠ ([] : List (List Rgb))
    ∧ field_matrix_to_image (image_to_field_matrix [[]]) ≠ [([] : List Rgb)] := by
  refine ⟨rfl, rfl, by decide, by decide⟩

/-- C7: encoding a rectangular pixel matrix whose channel values lie in
[0, 255] and decoding it back reproduces every pixel exactly. -/
theorem C7_encode_decode_roundtrip (image : List (List Rgb)) (W : Nat)
    (hrect : ∀ row ∈ image, row.length = W)
    (hbyte : ∀ row ∈ image, ∀ p ∈ row,
      p.1 < 256 ∧ p.2.1 < 256 ∧ p.2.2 < 256) :
    ∀ y x p, pixAt image y x = some p →
      pixAt (field_matrix_to_image (image_to_field_matrix image)) y x = some p := by
  intro y x p hp
  unfold pixAt at hp
  cases hrow : image.get? y with
  | none => rw [hrow] at hp; cases hp
  | some row =>
  rw [hrow] at hp
  simp only [Option.some_bind] at hp
  have hrowmem : row ∈ image := List.get?_mem hrow
  have hpmem : p ∈ row := List.get?_mem hp
  have hrlen : row.length = W := hrect row hrowmem
  have hxlt : x < row.length := (List.get?_eq_some.mp hp).1
  have hylt : y < image.length := (List.get?_eq_some.mp hrow).1
  have hxW : x < W := hrlen ▸ hxlt
  rcases image with _ | ⟨r0, rows⟩
  · cases hrow
  have hr0len : r0.length = W := hrect r0 (List.mem_cons_self r0 rows)
  have hWpos : 0 < W := Nat.lt_of_le_of_lt (Nat.zero_le x) hxW
  have henc :
      image_to_field_matrix (r0 :: rows)
        = (r0.map encPix)
          :: rows.map fun rw2 => rw2.map encPix := rfl
  have hne : ((r0.map encPix).isEmpty) = false := by
    rcases r0 with _ | _
    · simp at hr0len
      omega
    · rfl
  unfold field_matrix_to_image
  rw [henc]
  simp only [List.isEmpty_cons, hne, Bool.or_self, Bool.false_eq_true, if_false,
    List.headI]
  have hlen1 : ((r0.map encPix)
      :: rows.map fun rw2 => rw2.map encPix).length
      = (r0 :: rows).length := by simp
  have hlen2 : (r0.map encPix).length = W := by
    simp [hr0len]
  unfold pixAt
  rw [List.get?_map, List.get?_range (by rw [hlen1]; exact hylt)]
  simp only [Option.map_some', Option.some_bind]
  rw [List.get?_map, List.get?_range (by rw [hlen2]; exact hxW)]
  simp only [Option.map_some']
  rw [← henc]
  have hmat : (image_to_field_matrix (r0 :: rows)).get? y
      = some (row.map encPix) := by
    unfold image_to_field_matrix
    rw [List.get?_map, hrow]
    rfl
  rw [hmat]
  simp only [Option.some_bind]
  rw [List.get?_map, hp]
  simp only [Option.map_some']
  rcases hbyte row hrowmem p hpmem with ⟨h1, h2, h3⟩
  rw [encPix_roundtrip h1 h2 h3]

/-- C7 witness: the round-trip at a concrete 1×2 matrix and pixel (0, 1). -/
theorem C7_encode_decode_roundtrip_witness :
    (∀ row ∈ [[((9 : Nat), (8 : Nat), (7 : Nat)), (1, 2, 255)]], row.length = 2)
    ∧ (∀ row ∈ [[((9 : Nat), (8 : Nat), (7 : Nat)), (1, 2, 255)]], ∀ p ∈ row,
        p.1 < 256 ∧ p.2.1 < 256 ∧ p.2.2 < 256)
    ∧ pixAt (field_matrix_to_image
        (image_to_field_matrix [[(9, 8, 7), (1, 2, 255)]])) 0 1 = some (1, 2, 255) :=
  ⟨by decide, by decide,
    C7_encode_decode_roundtrip [[(9, 8, 7), (1, 2, 255)]] 2 (by decide) (by decide)
      0 1 (1, 2, 255) (by decide)⟩

/-- C5: for positive dimensions and tile size whose uncapped tile count is
within `max_tiles`, `tile_hd_image` returns exactly the row-major clipped
tiling, whose tiles have width/height ≤ T, stay inside the image, and cover
every pixel of `[0, W) × [0, H)` exactly once; Scenario A (640×480, T = 256)
yields exactly the six tiles of the claim, and `HDProcessor::new` defaults
to `tile_size = 256`, `max_tiles = 20`. -/
theorem C5_tile_hd_image_coverage (W H T mt : Nat) (hW : 1 ≤ W) (hH : 1 ≤ H)
    (hT : 1 ≤ T) (hcap : (rowMajorTiles T W H).length ≤ mt) :
    HDProcessor.tile_hd_image ⟨T, mt⟩ W H = rowMajorTiles T W H
    ∧ (∀ t ∈ HDProcessor.tile_hd_image ⟨T, mt⟩ W H,
        t.2.2.1 ≤ T ∧ t.2.2.2 ≤ T ∧ t.1 + t.2.2.1 ≤ W ∧ t.2.1 + t.2.2.2 ≤ H)
    ∧ (∀ px py, px < W → py < H →
        ∃! t, t ∈ HDProcessor.tile_hd_image ⟨T, mt⟩ W H ∧ coversPoint t px py)
    ∧ HDProcessor.new.tile_hd_image 640 480
      = [(0, 0, 256, 256), (256, 0, 256, 256), (512, 0, 128, 256),
         (0, 256, 256, 224), (256, 256, 256, 224), (512, 256, 128, 224)]
    ∧ HDProcessor.new.tile_size = 256 ∧ HDProcessor.new.max_tiles = 20 := by
  have heq := tile_hd_image_no_cap T mt W H hcap
  refine ⟨heq, ?_, ?_, by decide, rfl, rfl⟩
  · intro t ht
    rw [heq] at ht
    rcases (mem_rowMajorTiles hT).mp ht with ⟨x, y, _, hxlt, _, hylt, rfl⟩
    have h1 : min T (W - x) ≤ W - x := Nat.min_le_right _ _
    have h2 : min T (H - y) ≤ H - y := Nat.min_le_right _ _
    have h3 : min T (W - x) ≤ T := Nat.min_le_left _ _
    have h4 : min T (H - y) ≤ T := Nat.min_le_left _ _
    simp only [tileAt]
    exact ⟨h3, h4, by omega, by omega⟩
  · intro px py hpx hpy
    rw [heq]
    exact rowMajor_cover_exists_unique hT hpx hpy

/-- C5 witness: the hypotheses hold at W = 640, H = 480, T = 256,
mt = 20 (the uncapped count is 6 ≤ 20), and Scenario A follows. -/
theorem C5_tile_hd_image_coverage_witness :
    (1 ≤ 640 ∧ 1 ≤ 480 ∧ 1 ≤ 256 ∧ (rowMajorTiles 256 640 480).length ≤ 20)
    ∧ HDProcessor.new.tile_hd_image 640 480
      = [(0, 0, 256, 256), (256, 0, 256, 256), (512, 0, 128, 256),
         (0, 256, 256, 224), (256, 256, 256, 224), (512, 256, 128, 224)] :=
  ⟨⟨by decide, by decide, by decide, by decide⟩,
    (C5_tile_hd_image_coverage 640 480 256 20 (by decide) (by decide)
      (by decide) (by decide)).2.2.2.1⟩

/-- C8: for a non-empty rectangular image and `sample_size ≥ 1`, the hash
input built by `calculate_poseidon_image_hash` is exactly the byte
serialisation of the pixels at row indices `0, s_y, 2·s_y, …` and column
indices `0, s_x, 2·s_x, …` in row-major order, with
`s_y = max(1, height / sample_size)` and `s_x = max(1, width / sample_size)`
(integer division). -/
theorem C8_hash_input_is_strided_sample (image : List (List Rgb)) (W : Nat)
    (hH : 1 ≤ image.length) (hW : 1 ≤ W)
    (hrect : ∀ row ∈ image, row.length = W) (s : Nat) (hs : 1 ≤ s) :
    calculate_poseidon_hash_input image s
      = some ((claimSampledPixels image s).flatMap fun p =>
          p.1.to_bytes ++ p.2.1.to_bytes ++ p.2.2.to_bytes) := by
  unfold calculate_poseidon_hash_input
  rw [poseidonSampledPixels_rect image W hH hW hrect s hs]
  rfl

/-- C8 witness: the strided sample at a concrete 2×2 image with
sample count 2. -/
theorem C8_hash_input_is_strided_sample_witness :
    (1 ≤ ([[((1 : Nat), (2 : Nat), (3 : Nat)), (4, 5, 6)],
      [(7, 8, 9), (10, 11, 12)]] : List (List Rgb)).length
      ∧ (∀ row ∈ ([[((1 : Nat), (2 : Nat), (3 : Nat)), (4, 5, 6)],
          [(7, 8, 9), (10, 11, 12)]] : List (List Rgb)), row.length = 2))
    ∧ calculate_poseidon_hash_input
        [[(1, 2, 3), (4, 5, 6)], [(7, 8, 9), (10, 11, 12)]] 2
      = some ((claimSampledPixels
          [[(1, 2, 3), (4, 5, 6)], [(7, 8, 9), (10, 11, 12)]] 2).flatMap fun p =>
            p.1.to_bytes ++ p.2.1.to_bytes ++ p.2.2.to_bytes) :=
  ⟨⟨by decide, by decide⟩,
    C8_hash_input_is_strided_sample
      [[(1, 2, 3), (4, 5, 6)], [(7, 8, 9), (10, 11, 12)]] 2
      (by decide) (by decide) (by decide) 2 (by decide)⟩

/-- C9 counterexample: the 1×1 image meets the claim's precondition
(width ≥ 1, height ≥ 1), yet `chunk_image` with `chunk_size = 0` panics —
Rust's `step_by` asserts a non-zero step — modelled as `none`; the claim's
"both functions return without panicking" fails as stated. -/
theorem C9_chunk_image_chunk_size_zero_panics :
    1 ≤ ([[((0 : Nat), (0 : Nat), (0 : Nat))]] : List (List Rgb)).length
    ∧ 1 ≤ ([((0 : Nat), (0 : Nat), (0 : Nat))] : List Rgb).length
    ∧ chunk_image [[(0, 0, 0)]] 0 = none := by decide

/-- C9 (amended): for a non-empty rectangular image, with `sample_size ≥ 1`
for the hash and additionally `chunk_size ≥ 1` for `chunk_image`, every
index is in bounds, every division is defined and every `step_by` stride is
positive, so both functions return without panicking. -/
theorem C9_no_panic_under_preconditions (image : List (List Rgb)) (W : Nat)
    (hH : 1 ≤ image.length) (hW : 1 ≤ W)
    (hrect : ∀ row ∈ image, row.length = W) :
    (∀ s, 1 ≤ s → (calculate_poseidon_hash_input image s).isSome)
    ∧ (∀ cs, 1 ≤ cs → (chunk_image image cs).isSome) := by
  constructor
  · intro s hs
    unfold calculate_poseidon_hash_input
    rw [poseidonSampledPixels_rect image W hH hW hrect s hs]
    rfl
  · intro cs hcs
    exact chunk_image_isSome image W hH hW hrect cs hcs

/-- C9 witness: both functions succeed on a concrete 1×1 image with
sample count 1 and chunk size 1. -/
theorem C9_no_panic_under_preconditions_witness :
    (1 ≤ ([[((1 : Nat), (2 : Nat), (3 : Nat))]] : List (List Rgb)).length
      ∧ (∀ row ∈ ([[((1 : Nat), (2 : Nat), (3 : Nat))]] : List (List Rgb)),
          row.length = 1) ∧ 1 ≤ 1)
    ∧ (calculate_poseidon_hash_input [[(1, 2, 3)]] 1).isSome
    ∧ (chunk_image [[(1, 2, 3)]] 1).isSome :=
  ⟨⟨by decide, by decide, by decide⟩,
    (C9_no_panic_under_preconditions [[(1, 2, 3)]] 1 (by decide) (by decide)
      (by decide)).1 1 (by decide),
    (C9_no_panic_under_preconditions [[(1, 2, 3)]] 1 (by decide) (by decide)
      (by decide)).2 1 (by decide)⟩

end ZkImg

